import Mathlib

/-!
Verification development for the NEORL AEO ensemble optimizer
(`neorl/hybrid/aeo.py`) and the differential-evolution clipping helper
(`build/lib/neorl/hybrid/pesacore/de.py`).

The Python code is shallowly embedded: floats become `ℚ` (or `ℝ` where the
source computes with `log`/`exp`/`π`), populations become lists, and every
stochastic draw (`np.random.choice`, `random.shuffle`, `np.random.binomial`,
`np.random.multinomial`) is passed in as an explicit oracle argument together
with a predicate describing exactly which values the library call can return.
-/

namespace NeorlPS

/-- Optimization direction shared across the ensemble (`mode` in `aeo.py`). -/
inductive Mode
  | max
  | min
deriving DecidableEq

/-- Weighting scheme `wt` for member selection (`'log'/'lin'/'exp'/'uni'`). -/
inductive Wt
  | log
  | lin
  | exp
  | uni
deriving DecidableEq

/-- Ordering option `order` for member selection (`'wb'/'bw'/'awb'/'abw'`).
`None` is only ever used together with `wt='uni'`, where the code never reads
`order`, so the embedding always passes a concrete ordering. -/
inductive OrderSpec
  | wb
  | bw
  | awb
  | abw
deriving DecidableEq

/-- Strength measure selector (`g`/`b`): `'fitness'` or `'improve'`. -/
inductive Measure
  | fitness
  | improve
deriving DecidableEq

/-- A float-or-`'up'`-or-`'down'` parameter specification, the shape shared by
`alpha`, `beta` and `q` in `AEO.__init__`. -/
inductive ABSpec
  | num (x : ℚ)
  | up
  | down
deriving DecidableEq

/-- `AEO.get_alphabeta` (aeo.py 508-514). -/
def get_alphabeta (aorb : ABSpec) (ncyc Ncyc : ℕ) : ℚ :=
  match aorb with
  | ABSpec.num x => x
  | ABSpec.up => ((ncyc : ℚ) - 1) / ((Ncyc : ℚ) - 1)
  | ABSpec.down => 1 - ((ncyc : ℚ) - 1) / ((Ncyc : ℚ) - 1)

/-- `AEO.get_q` (aeo.py 516-522). -/
def get_q (q : ABSpec) (ncyc Ncyc : ℕ) : ℚ :=
  match q with
  | ABSpec.num x => x
  | ABSpec.up => 2 / (1 - (Ncyc : ℚ)) * (1 - (ncyc : ℚ)) - 1
  | ABSpec.down => 2 / (1 - (Ncyc : ℚ)) * ((ncyc : ℚ) - 1) + 1

/-- Per-population binomial success probability `(.5 - s)*qt + .5`
(aeo.py line 668). -/
def binomial_wt (s qt : ℚ) : ℚ := (1/2 - s) * qt + 1/2

/-- One ensemble population (`Population` in aeo.py): current members, the
parallel fitness list, the cached size `n`, the shared optimization mode and
the append-only best-fitness history `fitlog`.  The owned strategy object, its
`conv` cost formula and the `popname` logging tag are opaque external
collaborators and are not part of the migration state. -/
structure Population (α : Type) where
  members : List α
  member_fitnesses : List ℚ
  n : ℕ
  mode : Mode
  fitlog : List ℚ
deriving DecidableEq

/-- `Population.receive` (aeo.py 337-341): append the incoming individuals,
append one missing-fitness sentinel (`np.nan`, modelled by the explicit
parameter `nan`) per individual, and refresh the cached size from the new
member list. -/
def Population.receive {α : Type} (p : Population α) (individuals : List α) (nan : ℚ) :
    Population α :=
  { p with
    members := p.members ++ individuals,
    member_fitnesses := p.member_fitnesses ++ List.replicate individuals.length nan,
    n := (p.members ++ individuals).length }

/-- Raw strength signal of `Population.strength` (aeo.py 248-251): with
`g = improve` and at least two recorded cycles it is
`max(fitlog[-1] - fitlog[-2], 0)`; otherwise — for `g = fitness`, and no
matter what on the first cycle — it is `self.fitness = fitlog[-1]`
(`none` models the IndexError a read of `fitlog[-1]` raises on an empty log). -/
def Population.strengthUnorm (g : Measure) (fitlog : List ℚ) : Option ℚ :=
  if g = Measure.improve ∧ 1 < fitlog.length then
    match fitlog.getLast?, fitlog.dropLast.getLast? with
    | some l1, some l2 => some (max (l1 - l2) 0)
    | _, _ => none
  else
    fitlog.getLast?

/-- `Population.strength` (aeo.py 241-273): normalize the raw signal between
the cycle's global worst and best fitness and, if burdened, divide by
`1 + Nc` where `Nc = self.conv(self.last_ngen, self.n)` is the evaluation
cost reported by the external strategy (passed in as an argument here). -/
def Population.strength (g : Measure) (g_burden : Bool) (fmax fmin : ℚ) (mode : Mode)
    (fitlog : List ℚ) (Nc : ℚ) : Option ℚ :=
  let fbest := if mode = Mode.max then fmax else fmin
  let fworst := if mode = Mode.max then fmin else fmax
  (Population.strengthUnorm g fitlog).map (fun unorm =>
    let normed := (unorm - fworst) / (fbest - fworst)
    if g_burden then normed / (1 + Nc) else normed)

/-- Lexicographic order on `(fitness, member)` pairs: Python's tuple
comparison, as used by `sorted(zip(self.member_fitnesses, self.members))` in
`Population.export` (aeo.py 297-306).  Individuals are lists of floats there,
compared lexicographically; the embedding keeps the member type abstract and
only assumes it is linearly ordered. -/
def pairLe {α : Type} [LinearOrder α] (x y : ℚ × α) : Prop :=
  x.1 < y.1 ∨ (x.1 = y.1 ∧ x.2 ≤ y.2)

/-- Reversed tuple comparison, for `sorted(..., reverse=True)`. -/
def pairGe {α : Type} [LinearOrder α] (x y : ℚ × α) : Prop := pairLe y x

instance {α : Type} [LinearOrder α] : DecidableRel (@pairLe α _) := fun x y =>
  decidable_of_iff (x.1 < y.1 ∨ (x.1 = y.1 ∧ x.2 ≤ y.2)) Iff.rfl

instance {α : Type} [LinearOrder α] : DecidableRel (@pairGe α _) := fun x y =>
  decidable_of_iff (y.1 < x.1 ∨ (y.1 = x.1 ∧ y.2 ≤ x.2)) Iff.rfl

instance {α : Type} [LinearOrder α] : IsTotal (ℚ × α) (@pairLe α _) := by
  constructor
  intro x y
  rcases lt_trichotomy x.1 y.1 with h | h | h
  · exact Or.inl (Or.inl h)
  · rcases le_total x.2 y.2 with h2 | h2
    · exact Or.inl (Or.inr ⟨h, h2⟩)
    · exact Or.inr (Or.inr ⟨h.symm, h2⟩)
  · exact Or.inr (Or.inl h)

instance {α : Type} [LinearOrder α] : IsTrans (ℚ × α) (@pairLe α _) := by
  constructor
  intro x y z hxy hyz
  rcases hxy with h1 | ⟨h1, h1'⟩
  · rcases hyz with h2 | ⟨h2, _⟩
    · exact Or.inl (h1.trans h2)
    · exact Or.inl (h2 ▸ h1)
  · rcases hyz with h2 | ⟨h2, h2'⟩
    · exact Or.inl (h1 ▸ h2)
    · exact Or.inr ⟨h1.trans h2, h1'.trans h2'⟩

instance {α : Type} [LinearOrder α] : IsAntisymm (ℚ × α) (@pairLe α _) := by
  constructor
  intro x y hxy hyx
  rcases hxy with h1 | ⟨h1, h1'⟩
  · rcases hyx with h2 | ⟨h2, _⟩
    · exact absurd (h1.trans h2) (lt_irrefl _)
    · exact absurd h1 (h2 ▸ lt_irrefl _)
  · rcases hyx with h2 | ⟨h2, h2'⟩
    · exact absurd (h1 ▸ h2) (lt_irrefl _)
    · exact Prod.ext h1 (le_antisymm h1' h2')

instance {α : Type} [LinearOrder α] : IsTotal (ℚ × α) (@pairGe α _) := by
  constructor
  intro x y
  exact (IsTotal.total (r := @pairLe α _) y x).imp id id

instance {α : Type} [LinearOrder α] : IsTrans (ℚ × α) (@pairGe α _) := by
  constructor
  intro x y z hxy hyz
  exact IsTrans.trans (r := @pairLe α _) z y x hyz hxy

instance {α : Type} [LinearOrder α] : IsAntisymm (ℚ × α) (@pairGe α _) := by
  constructor
  intro x y hxy hyx
  exact IsAntisymm.antisymm (r := @pairLe α _) x y hyx hxy

/-- Sequential `lst.pop(i)` at the given indices, in the given order, mirroring
`[lst.pop(i) for i in reversed(sorted(indxs))]` of `wtd_remove` (aeo.py 78):
returns the popped elements (in visit order) and the remaining list.  The
`none` branch corresponds to an out-of-range `pop`, which raises in Python;
`np.random.choice` only draws in-range distinct indices (`DrawOK`), under
which that branch is dead. -/
def popSeq {α : Type} : List α → List ℕ → List α × List α
  | l, [] => ([], l)
  | l, i :: rest =>
    match l[i]? with
    | some a =>
      let r := popSeq (l.eraseIdx i) rest
      (a :: r.1, r.2)
    | none => popSeq l rest

/-- `reversed(sorted(indxs))`: the drawn indices in decreasing order. -/
def sortDesc (idxs : List ℕ) : List ℕ := List.insertionSort (· ≥ ·) idxs

/-- `wtd_remove(lst, ei, wts)` (aeo.py 67-78), with the random draw of
`np.random.choice` supplied as the oracle `indxs`: pop the drawn indices in
decreasing index order, returning the popped elements and the remaining list.
The weights passed to `np.random.choice` only constrain which draws the RNG
can produce (see `ValidDraw`); they do not enter the removal itself. -/
def wtd_remove {α : Type} (lst : List α) (indxs : List ℕ) : List α × List α :=
  popSeq lst (sortDesc indxs)

/-- Effective ordering (aeo.py 287-293): annealed orders (`order[0] == 'a'`)
use `order[1:]` before cycle fraction 1/2 and the reversed pair after. -/
def effectiveOrder (order : OrderSpec) (gfrac : ℚ) : OrderSpec :=
  match order with
  | OrderSpec.awb => if gfrac < 1/2 then OrderSpec.wb else OrderSpec.bw
  | OrderSpec.abw => if gfrac < 1/2 then OrderSpec.bw else OrderSpec.wb
  | o => o

/-- The reordering step of `Population.export` (aeo.py 295-306): ascending
lexicographic sort of the `(fitness, member)` pairs when
`(o == 'wb' and mode == 'max') or (o == 'bw' and mode == 'min')`, descending
when `(o == 'bw' and mode == 'max') or (o == 'wb' and mode == 'min')`
(exactly one of the two sequential `if`s fires for `o` in `{wb, bw}`), with
`member_fitnesses` sorted alongside by a separate `sorted(...)` call.
Python's stable sort returns the same list as any sort by this total
antisymmetric pair order, so `List.insertionSort` is used. -/
def sortPhase {α : Type} [LinearOrder α] (mode : Mode) (o : OrderSpec) (fits : List ℚ)
    (mems : List α) : List ℚ × List α :=
  let asc : Prop := (o = OrderSpec.wb ∧ mode = Mode.max) ∨
    (o = OrderSpec.bw ∧ mode = Mode.min)
  let mems1 := if asc then
    (List.insertionSort pairLe (fits.zip mems)).map Prod.snd else mems
  let fits1 := if asc then List.insertionSort (· ≤ ·) fits else fits
  let desc : Prop := (o = OrderSpec.bw ∧ mode = Mode.max) ∨
    (o = OrderSpec.wb ∧ mode = Mode.min)
  let mems2 := if desc then
    (List.insertionSort pairGe (fits1.zip mems1)).map Prod.snd else mems1
  let fits2 := if desc then List.insertionSort (· ≥ ·) fits1 else fits1
  (fits2, mems2)

/-- `Population.export` (aeo.py 275-335), named `export'` because `export` is
reserved in Lean.  The uniform branch removes the drawn members directly; the
weighted branch first reorders via `sortPhase` (per the effective ordering of
aeo.py 287-293).  Either way `wtd_remove` pops the members drawn by
`np.random.choice` (the oracle `draw`, constrained elsewhere by the rank
weights `exportWts`), the matching fitness entries are popped at the same
indices (aeo.py 330), and `n` is refreshed from the member list.  `ei` is the
requested export count; it reaches the RNG only as the draw size, so it is
tied to `draw` through `ValidDraw`/`DrawOK` hypotheses in the theorems. -/
def Population.export' {α : Type} [LinearOrder α] (p : Population α) (ei : ℕ) (wt : Wt)
    (order : OrderSpec) (kf : ℕ) (gfrac : ℚ) (draw : List ℕ) : Population α × List α :=
  if wt = Wt.uni then
    let res := wtd_remove p.members draw
    let resF := wtd_remove p.member_fitnesses draw
    ({ p with members := res.2, member_fitnesses := resF.2, n := res.2.length }, res.1)
  else
    let o := effectiveOrder order gfrac
    let sorted := sortPhase p.mode o p.member_fitnesses p.members
    let res := wtd_remove sorted.2 draw
    let resF := wtd_remove sorted.1 draw
    ({ p with members := res.2, member_fitnesses := resF.2, n := res.2.length }, res.1)

/-- Ramanujan approximation of `log(n!)` (`raj_logfact`, aeo.py 37-43). -/
noncomputable def raj_logfact (n : ℝ) : ℝ :=
  n * Real.log n - n + Real.log (n * (1 + 4*n*(1+2*n))) / 6 + Real.log Real.pi / 2

/-- The rank weights of aeo.py 308-315 (rank `r` runs over `1..n`, here as
`r0 + 1` with `r0 < n`); `uni` is the uniform weight `1/len(lst)` built inside
`wtd_remove` when it is called without weights (aeo.py 70-71).  These are
real-valued because the `log`/`exp` schemes use transcendental functions. -/
noncomputable def exportWts (wt : Wt) (kf : ℕ) (n : ℕ) : List ℝ :=
  (List.range n).map (fun (r0 : ℕ) =>
    match wt with
    | Wt.uni => 1 / (n : ℝ)
    | Wt.log => (Real.log ((r0 : ℝ) + 1) + (kf : ℝ)) /
        ((n : ℝ) * (kf : ℝ) + raj_logfact (n : ℝ))
    | Wt.lin => (((r0 : ℝ) + 1) - 1 + (kf : ℝ)) /
        ((n : ℝ) * ((kf : ℝ) - 1/2) + 1/2 * (n : ℝ)^2)
    | Wt.exp => (Real.exp (((r0 : ℝ) + 1) - 1) - 1 + (kf : ℝ)) /
        (((kf : ℝ) - 1) * (n : ℝ) + (1 - Real.exp (n : ℝ)) / (1 - Real.exp 1)))

/-- Structural validity of a without-replacement index draw over a list of
length `n`: `np.random.choice(range(n), size=k, replace=False)` returns
distinct in-range indices. -/
def DrawOK (n : ℕ) (draw : List ℕ) : Prop := draw.Nodup ∧ ∀ i ∈ draw, i < n

instance (n : ℕ) (draw : List ℕ) : Decidable (DrawOK n draw) := by
  unfold DrawOK
  infer_instance

/-- A draw that `np.random.choice(range(len(wts)), size=k, p=wts,
replace=False)` can actually produce: `k` distinct in-range indices, each
carrying positive probability. -/
def ValidDraw (wts : List ℝ) (k : ℕ) (draw : List ℕ) : Prop :=
  draw.length = k ∧ draw.Nodup ∧ ∀ i ∈ draw, i < wts.length ∧ 0 < wts.getD i 0

/-- `np.random.choice(..., size=k, p=wts, replace=False)` succeeds (it raises
"Fewer non-zero entries in p than size" when the support is too small)
precisely when some valid draw exists. -/
def SampleOK (wts : List ℝ) (k : ℕ) : Prop := ∃ draw, ValidDraw wts k draw

/-- The member-list lengths of an ensemble, whose sum is the total number of
individuals ("mass"). -/
def sizes {α : Type} (pops : List (Population α)) : List ℕ :=
  pops.map (fun p => p.members.length)

/-- `Population.export` applied across the ensemble (aeo.py line 683): each
population is exported with its own count and its own `np.random.choice`
draw; returns the (population, removed members) pairs. -/
def exportAll {α : Type} [LinearOrder α] (pops : List (Population α)) (eis : List ℕ)
    (wt : Wt) (order : OrderSpec) (kf : ℕ) (gfrac : ℚ) (draws : List (List ℕ)) :
    List (Population α × List α) :=
  (pops.zip (eis.zip draws)).map (fun x => x.1.export' x.2.1 wt order kf gfrac x.2.2)

/-- The `ret=True` distribution loop (aeo.py 706-708): walk the populations
with the multinomial allotment, hand each its next contiguous slice of the
shuffled pool, and drop that slice from the pool. -/
def distribute {α : Type} (nan : ℚ) :
    List (Population α) → List ℕ → List α → List (Population α)
  | [], _, _ => []
  | ps, [], _ => ps
  | p :: ps, a :: rest, pool =>
      p.receive (pool.take a) nan :: distribute nan ps rest (pool.drop a)

/-- The `ret=True` migration step of `AEO.evolute` (aeo.py 683, 695-708):
export every population, then distribute the pooled exported individuals.
`pool` is the oracle for `random.shuffle` on the chained exports (a
permutation of the concatenated removed members, see the mass-conservation
hypotheses) and `allot` the oracle for `np.random.multinomial`. -/
def migrateRet {α : Type} [LinearOrder α] (nan : ℚ) (pops : List (Population α))
    (eis : List ℕ) (wt : Wt) (order : OrderSpec) (kf : ℕ) (gfrac : ℚ)
    (draws : List (List ℕ)) (pool : List α) (allot : List ℕ) : List (Population α) :=
  distribute nan ((exportAll pops eis wt order kf gfrac draws).map Prod.fst) allot pool

/-- Replace the element at one position, used for `self.pops[pi].receive(...)`
updates inside the `ret=False` loop. -/
def listModify {β : Type} (f : β → β) : List β → ℕ → List β
  | [], _ => []
  | b :: bs, 0 => f b :: bs
  | b :: bs, m + 1 => b :: listModify f bs m

/-- `pop_indxs[:j] + pop_indxs[j+1:]` (aeo.py 711, 716): all population
indices except the origin `j`, by the source's slicing of `range(npops)`. -/
def exclIdxs (npops j : ℕ) : List ℕ :=
  (List.range npops).take j ++ (List.range npops).drop (j + 1)

/-- The inner `ret=False` distribution loop (aeo.py 719-721): walk the
destination indices with the group's multinomial allotment, hand each
destination its next contiguous slice of the (shuffled) exported group. -/
def distribExcl {α : Type} (nan : ℚ) :
    List (Population α) → List ℕ → List ℕ → List α → List (Population α)
  | pops, pi :: idxs, a :: rest, group =>
      distribExcl nan (listModify (fun p => p.receive (group.take a) nan) pops pi)
        idxs rest (group.drop a)
  | pops, _, _, _ => pops

/-- The `ret=False` routing loop of `AEO.evolute` (aeo.py 710-724): for each
origin population `j` in turn, distribute its exported group over all other
populations.  `sgroups` is the oracle for the per-group `random.shuffle`
(each a permutation of that origin's removed members) and `allots` the
per-group `np.random.multinomial` oracles (each of length `npops - 1`,
summing to the group size). -/
def routeNoRet {α : Type} (nan : ℚ) :
    List (Population α) → ℕ → List (List α) → List (List ℕ) → List (Population α)
  | pops, j, g :: gs, al :: als =>
      routeNoRet nan (distribExcl nan pops (exclIdxs pops.length j) al g) (j + 1) gs als
  | pops, _, _, _ => pops

/-- The `ret=False` migration step (aeo.py 683, 710-724): export every
population, then route each exported group over the other populations. -/
def migrateNoRet {α : Type} [LinearOrder α] (nan : ℚ) (pops : List (Population α))
    (eis : List ℕ) (wt : Wt) (order : OrderSpec) (kf : ℕ) (gfrac : ℚ)
    (draws : List (List ℕ)) (sgroups : List (List α)) (allots : List (List ℕ)) :
    List (Population α) :=
  routeNoRet nan ((exportAll pops eis wt order kf gfrac draws).map Prod.fst) 0 sgroups allots

/-- The export-number phase of one `AEO.evolute` cycle (aeo.py 656-679),
including the unconditional `log['alpha'] = alpha` write at line 679.  In the
degenerate branch (`maxf == minf`) the local variable `alpha` has never been
assigned in this loop iteration; it only holds a value if a previous cycle
took the non-degenerate branch, modelled by `prevAlpha`.  Reading it while
unbound raises `UnboundLocalError`, modelled by `none`.  In the non-degenerate
branch the per-population export counts are binomial draws, supplied as the
oracle `binDraws`.  Returns `(export counts, migration flag, logged alpha)`. -/
def exportNumberPhase (fits : List ℚ) (prevAlpha : Option ℚ) (alphaSpec : ABSpec)
    (ncyc Ncyc : ℕ) (binDraws : List ℕ) : Option (List ℕ × Bool × ℚ) :=
  if fits.max? = fits.min? then
    match prevAlpha with
    | none => none
    | some a => some (List.replicate fits.length 0, false, a)
  else
    some (binDraws, true, get_alphabeta alphaSpec ncyc Ncyc)

/-- `DEmod.ensure_bounds` (de.py 52-70), indexing helper: walks the bounds
entries with the running index `i`; for each, the three independent
conditionals append the clipped low value (`vec[i] < low`), the clipped high
value (`vec[i] > high`), and the unchanged component
(`low <= vec[i] <= high`), in that order.  `none` models the IndexError when
`vec` is shorter than `bounds`. -/
def ensure_bounds_go (vec : List ℚ) : ℕ → List (ℚ × ℚ) → Option (List ℚ)
  | _, [] => some []
  | i, b :: rest =>
    match vec[i]? with
    | none => none
    | some v =>
      (ensure_bounds_go vec (i + 1) rest).map (fun tail =>
        ((if v < b.1 then [b.1] else []) ++ (if v > b.2 then [b.2] else []) ++
          (if b.1 ≤ v ∧ v ≤ b.2 then [v] else [])) ++ tail)

/-- `DEmod.ensure_bounds(vec, bounds)` (de.py 52-70): each bounds entry is a
`(low, high)` pair, in the ordered-dict order. -/
def ensure_bounds (vec : List ℚ) (bounds : List (ℚ × ℚ)) : Option (List ℚ) :=
  ensure_bounds_go vec 0 bounds

/-- Strictly decreasing, in-range index lists: the shape that
`reversed(sorted(indxs))` has for a distinct in-range draw. -/
def GoodIdxs (n : ℕ) (idxs : List ℕ) : Prop :=
  List.Pairwise (· > ·) idxs ∧ ∀ i ∈ idxs, i < n

lemma goodIdxs_tail {n i : ℕ} {rest : List ℕ} (h : GoodIdxs n (i :: rest)) :
    GoodIdxs (n - 1) rest := by
  obtain ⟨hp, hb⟩ := h
  rw [List.pairwise_cons] at hp
  refine ⟨hp.2, fun j hj => ?_⟩
  have hji : j < i := hp.1 j hj
  have hin : i < n := hb i (List.mem_cons_self i rest)
  omega

lemma popSeq_lengths {α : Type} : ∀ (idxs : List ℕ) (l : List α), GoodIdxs l.length idxs →
    (popSeq l idxs).1.length = idxs.length ∧
    (popSeq l idxs).2.length = l.length - idxs.length := by
  intro idxs
  induction idxs with
  | nil => intro l _; simp [popSeq]
  | cons i rest ih =>
    intro l h
    have hin : i < l.length := h.2 i (List.mem_cons_self i rest)
    have hel : (l.eraseIdx i).length = l.length - 1 := by
      rw [List.length_eraseIdx, if_pos hin]
    have hg : GoodIdxs (l.eraseIdx i).length rest := by
      rw [hel]; exact goodIdxs_tail h
    obtain ⟨h1, h2⟩ := ih (l.eraseIdx i) hg
    rw [popSeq, List.getElem?_eq_getElem hin]
    refine ⟨by simpa using h1, ?_⟩
    simp only []
    rw [h2, hel]
    simp only [List.length_cons]
    omega

lemma cons_eraseIdx_perm {α : Type} : ∀ (l : List α) (i : ℕ) (a : α), l[i]? = some a →
    l.Perm (a :: l.eraseIdx i) := by
  intro l
  induction l with
  | nil => intro i a h; simp at h
  | cons b l' ih =>
    intro i a h
    cases i with
    | zero =>
      simp only [List.getElem?_cons_zero, Option.some.injEq] at h
      subst h
      simp [List.eraseIdx]
    | succ i' =>
      simp only [List.getElem?_cons_succ] at h
      have hp := ih i' a h
      have h2 : (b :: l').eraseIdx (i' + 1) = b :: l'.eraseIdx i' := by
        simp [List.eraseIdx]
      rw [h2]
      exact (hp.cons b).trans (List.Perm.swap a b _)

lemma popSeq_perm {α : Type} : ∀ (idxs : List ℕ) (l : List α), GoodIdxs l.length idxs →
    ((popSeq l idxs).1 ++ (popSeq l idxs).2).Perm l := by
  intro idxs
  induction idxs with
  | nil => intro l _; simp [popSeq]
  | cons i rest ih =>
    intro l h
    have hin : i < l.length := h.2 i (List.mem_cons_self i rest)
    have hel : (l.eraseIdx i).length = l.length - 1 := by
      rw [List.length_eraseIdx, if_pos hin]
    have hg : GoodIdxs (l.eraseIdx i).length rest := by
      rw [hel]; exact goodIdxs_tail h
    have hperm := ih (l.eraseIdx i) hg
    rw [popSeq, List.getElem?_eq_getElem hin]
    simp only [List.cons_append]
    exact (hperm.cons _).trans (cons_eraseIdx_perm l i l[i]
      (List.getElem?_eq_getElem hin)).symm

lemma zip_eraseIdx {α β : Type} : ∀ (l : List α) (m : List β) (i : ℕ),
    (l.zip m).eraseIdx i = (l.eraseIdx i).zip (m.eraseIdx i) := by
  intro l
  induction l with
  | nil => intro m i; simp
  | cons a l' ih =>
    intro m i
    cases m with
    | nil => simp
    | cons b m' =>
      cases i with
      | zero =>
        rw [List.zip_cons_cons, List.eraseIdx_cons_zero, List.eraseIdx_cons_zero,
          List.eraseIdx_cons_zero]
      | succ i' =>
        rw [List.zip_cons_cons, List.eraseIdx_cons_succ, List.eraseIdx_cons_succ,
          List.eraseIdx_cons_succ, List.zip_cons_cons, ih m' i']

lemma popSeq_zip {α β : Type} : ∀ (idxs : List ℕ) (l : List α) (m : List β),
    l.length = m.length → GoodIdxs l.length idxs →
    popSeq (l.zip m) idxs =
      ((popSeq l idxs).1.zip (popSeq m idxs).1, (popSeq l idxs).2.zip (popSeq m idxs).2) := by
  intro idxs
  induction idxs with
  | nil => intro l m _ _; simp [popSeq]
  | cons i rest ih =>
    intro l m hlm h
    have hin : i < l.length := h.2 i (List.mem_cons_self i rest)
    have him : i < m.length := hlm ▸ hin
    have hel : (l.eraseIdx i).length = l.length - 1 := by
      rw [List.length_eraseIdx, if_pos hin]
    have hg : GoodIdxs (l.eraseIdx i).length rest := by
      rw [hel]; exact goodIdxs_tail h
    have hiz : i < (l.zip m).length := by
      rw [List.length_zip]; omega
    have hzget : (l.zip m)[i]? = some (l[i], m[i]) := by
      rw [List.getElem?_zip_eq_some]
      exact ⟨List.getElem?_eq_getElem hin, List.getElem?_eq_getElem him⟩
    have hlm' : (l.eraseIdx i).length = (m.eraseIdx i).length := by
      rw [List.length_eraseIdx, if_pos hin, List.length_eraseIdx, if_pos him, hlm]
    have hrec := ih (l.eraseIdx i) (m.eraseIdx i) hlm' hg
    rw [popSeq, hzget, popSeq, List.getElem?_eq_getElem hin, popSeq,
      List.getElem?_eq_getElem him]
    simp only [zip_eraseIdx] at hrec ⊢
    rw [hrec]
    simp [List.zip_cons_cons]

lemma sortDesc_perm (idxs : List ℕ) : (sortDesc idxs).Perm idxs :=
  List.perm_insertionSort _ _

lemma sortDesc_good {n : ℕ} {draw : List ℕ} (h : DrawOK n draw) :
    GoodIdxs n (sortDesc draw) := by
  obtain ⟨hnd, hb⟩ := h
  have hsorted : List.Sorted (· ≥ ·) (sortDesc draw) := List.sorted_insertionSort _ _
  have hnd' : (sortDesc draw).Nodup := (sortDesc_perm draw).symm.nodup hnd
  constructor
  · exact (List.Pairwise.and hsorted hnd').imp (fun hab => lt_of_le_of_ne hab.1 hab.2.symm)
  · intro i hi
    exact hb i ((sortDesc_perm draw).mem_iff.mp hi)

lemma sortDesc_length (idxs : List ℕ) : (sortDesc idxs).length = idxs.length :=
  (sortDesc_perm idxs).length_eq

/-- Lengths and pair-level permutation facts for the simultaneous removal of
the same drawn indices from the fitness list and the member list
(aeo.py 323 and 330). -/
lemma wtd_remove_spec {α : Type} (f2 : List ℚ) (m2 : List α) (draw : List ℕ)
    (hl : f2.length = m2.length) (hd : DrawOK m2.length draw) :
    (wtd_remove m2 draw).1.length = draw.length ∧
    (wtd_remove m2 draw).2.length = m2.length - draw.length ∧
    (wtd_remove f2 draw).1.length = draw.length ∧
    (wtd_remove f2 draw).2.length = m2.length - draw.length ∧
    ((wtd_remove f2 draw).2.zip (wtd_remove m2 draw).2 ++
      (wtd_remove f2 draw).1.zip (wtd_remove m2 draw).1).Perm (f2.zip m2) := by
  have hgm : GoodIdxs m2.length (sortDesc draw) := sortDesc_good hd
  have hgf : GoodIdxs f2.length (sortDesc draw) := by rw [hl]; exact hgm
  have hlm := popSeq_lengths (sortDesc draw) m2 hgm
  have hlf := popSeq_lengths (sortDesc draw) f2 hgf
  have hzl : (f2.zip m2).length = f2.length := by rw [List.length_zip, hl]; omega
  have hgz : GoodIdxs (f2.zip m2).length (sortDesc draw) := by rw [hzl]; exact hgf
  have hzip := popSeq_zip (sortDesc draw) f2 m2 hl hgf
  have hperm := popSeq_perm (sortDesc draw) (f2.zip m2) hgz
  rw [hzip] at hperm
  unfold wtd_remove
  refine ⟨by rw [hlm.1, sortDesc_length], by rw [hlm.2, sortDesc_length],
    by rw [hlf.1, sortDesc_length], by rw [hlf.2, sortDesc_length, hl], ?_⟩
  exact List.perm_append_comm.trans hperm

lemma pairLe_fst {α : Type} [LinearOrder α] {x y : ℚ × α} (h : pairLe x y) : x.1 ≤ y.1 := by
  rcases h with h | ⟨h, _⟩
  · exact le_of_lt h
  · exact le_of_eq h

/-- The independently sorted fitness list (aeo.py 301) is exactly the first
components of the lexicographically sorted `(fitness, member)` pairs: sorting
pairs lexicographically keeps fitnesses and members aligned. -/
lemma map_fst_sort_le {α : Type} [LinearOrder α] (l : List (ℚ × α)) :
    (List.insertionSort pairLe l).map Prod.fst =
      List.insertionSort (· ≤ ·) (l.map Prod.fst) := by
  have hperm : ((List.insertionSort pairLe l).map Prod.fst).Perm
      (List.insertionSort (· ≤ ·) (l.map Prod.fst)) :=
    ((List.perm_insertionSort pairLe l).map Prod.fst).trans
      (List.perm_insertionSort _ (l.map Prod.fst)).symm
  have hs1 : List.Sorted (· ≤ ·) ((List.insertionSort pairLe l).map Prod.fst) :=
    List.Pairwise.map Prod.fst (fun _ _ h => pairLe_fst h)
      (List.sorted_insertionSort pairLe l)
  have hs2 : List.Sorted (· ≤ ·) (List.insertionSort (· ≤ ·) (l.map Prod.fst)) :=
    List.sorted_insertionSort _ _
  exact List.eq_of_perm_of_sorted hperm hs1 hs2

lemma map_fst_sort_ge {α : Type} [LinearOrder α] (l : List (ℚ × α)) :
    (List.insertionSort pairGe l).map Prod.fst =
      List.insertionSort (· ≥ ·) (l.map Prod.fst) := by
  have hperm : ((List.insertionSort pairGe l).map Prod.fst).Perm
      (List.insertionSort (· ≥ ·) (l.map Prod.fst)) :=
    ((List.perm_insertionSort pairGe l).map Prod.fst).trans
      (List.perm_insertionSort _ (l.map Prod.fst)).symm
  have hs1 : List.Sorted (· ≥ ·) ((List.insertionSort pairGe l).map Prod.fst) :=
    List.Pairwise.map Prod.fst (fun _ _ h => pairLe_fst h)
      (List.sorted_insertionSort pairGe l)
  have hs2 : List.Sorted (· ≥ ·) (List.insertionSort (· ≥ ·) (l.map Prod.fst)) :=
    List.sorted_insertionSort _ _
  exact List.eq_of_perm_of_sorted hperm hs1 hs2

/-- One lexicographic sorting pass keeps lengths and keeps the zip of the
separately-sorted fitnesses with the pair-sorted members equal to the sorted
pair list itself (hence a permutation of the original pairing). -/
lemma sortPassLe {α : Type} [LinearOrder α] (fits : List ℚ) (mems : List α)
    (hl : fits.length = mems.length) :
    (List.insertionSort (· ≤ ·) fits).length = fits.length ∧
    ((List.insertionSort pairLe (fits.zip mems)).map Prod.snd).length = mems.length ∧
    (List.insertionSort (· ≤ ·) fits).zip
        ((List.insertionSort pairLe (fits.zip mems)).map Prod.snd) =
      List.insertionSort pairLe (fits.zip mems) := by
  have hzl : (fits.zip mems).length = fits.length := by
    rw [List.length_zip]; omega
  have hfst : (List.insertionSort pairLe (fits.zip mems)).map Prod.fst =
      List.insertionSort (· ≤ ·) fits := by
    rw [map_fst_sort_le, List.map_fst_zip fits mems (le_of_eq hl)]
  refine ⟨List.length_insertionSort _ _, ?_, ?_⟩
  · rw [List.length_map, List.length_insertionSort, hzl, hl]
  · exact (List.zip_of_prod hfst rfl).symm

lemma sortPassGe {α : Type} [LinearOrder α] (fits : List ℚ) (mems : List α)
    (hl : fits.length = mems.length) :
    (List.insertionSort (· ≥ ·) fits).length = fits.length ∧
    ((List.insertionSort pairGe (fits.zip mems)).map Prod.snd).length = mems.length ∧
    (List.insertionSort (· ≥ ·) fits).zip
        ((List.insertionSort pairGe (fits.zip mems)).map Prod.snd) =
      List.insertionSort pairGe (fits.zip mems) := by
  have hzl : (fits.zip mems).length = fits.length := by
    rw [List.length_zip]; omega
  have hfst : (List.insertionSort pairGe (fits.zip mems)).map Prod.fst =
      List.insertionSort (· ≥ ·) fits := by
    rw [map_fst_sort_ge, List.map_fst_zip fits mems (le_of_eq hl)]
  refine ⟨List.length_insertionSort _ _, ?_, ?_⟩
  · rw [List.length_map, List.length_insertionSort, hzl, hl]
  · exact (List.zip_of_prod hfst rfl).symm

lemma sortPhase_asc {α : Type} [LinearOrder α] (mode : Mode) (o : OrderSpec)
    (fits : List ℚ) (mems : List α)
    (h : sortPhase mode o fits mems =
      (List.insertionSort (· ≤ ·) fits,
        (List.insertionSort pairLe (fits.zip mems)).map Prod.snd))
    (hl : fits.length = mems.length) :
    (sortPhase mode o fits mems).1.length = fits.length ∧
    (sortPhase mode o fits mems).2.length = mems.length ∧
    ((sortPhase mode o fits mems).1.zip (sortPhase mode o fits mems).2).Perm
      (fits.zip mems) := by
  obtain ⟨ha, hb, hc⟩ := sortPassLe fits mems hl
  rw [h]
  refine ⟨ha, hb, ?_⟩
  show ((List.insertionSort (· ≤ ·) fits).zip
      ((List.insertionSort pairLe (fits.zip mems)).map Prod.snd)).Perm (fits.zip mems)
  rw [hc]
  exact List.perm_insertionSort _ _

lemma sortPhase_desc {α : Type} [LinearOrder α] (mode : Mode) (o : OrderSpec)
    (fits : List ℚ) (mems : List α)
    (h : sortPhase mode o fits mems =
      (List.insertionSort (· ≥ ·) fits,
        (List.insertionSort pairGe (fits.zip mems)).map Prod.snd))
    (hl : fits.length = mems.length) :
    (sortPhase mode o fits mems).1.length = fits.length ∧
    (sortPhase mode o fits mems).2.length = mems.length ∧
    ((sortPhase mode o fits mems).1.zip (sortPhase mode o fits mems).2).Perm
      (fits.zip mems) := by
  obtain ⟨ha, hb, hc⟩ := sortPassGe fits mems hl
  rw [h]
  refine ⟨ha, hb, ?_⟩
  show ((List.insertionSort (· ≥ ·) fits).zip
      ((List.insertionSort pairGe (fits.zip mems)).map Prod.snd)).Perm (fits.zip mems)
  rw [hc]
  exact List.perm_insertionSort _ _

/-- The reordering step keeps the fitness and member lists length-invariant
and keeps their zip a permutation of the original pairing. -/
lemma sortPhase_spec {α : Type} [LinearOrder α] (mode : Mode) (o : OrderSpec)
    (fits : List ℚ) (mems : List α) (hl : fits.length = mems.length) :
    (sortPhase mode o fits mems).1.length = fits.length ∧
    (sortPhase mode o fits mems).2.length = mems.length ∧
    ((sortPhase mode o fits mems).1.zip (sortPhase mode o fits mems).2).Perm
      (fits.zip mems) := by
  cases mode <;> cases o
  · exact sortPhase_asc _ _ _ _ rfl hl
  · exact sortPhase_desc _ _ _ _ rfl hl
  · exact ⟨rfl, rfl, List.Perm.refl _⟩
  · exact ⟨rfl, rfl, List.Perm.refl _⟩
  · exact sortPhase_desc _ _ _ _ rfl hl
  · exact sortPhase_asc _ _ _ _ rfl hl
  · exact ⟨rfl, rfl, List.Perm.refl _⟩
  · exact ⟨rfl, rfl, List.Perm.refl _⟩

lemma export'_uni {α : Type} [LinearOrder α] (p : Population α) (ei : ℕ)
    (order : OrderSpec) (kf : ℕ) (gfrac : ℚ) (draw : List ℕ) :
    p.export' ei Wt.uni order kf gfrac draw =
      ({ p with
          members := (wtd_remove p.members draw).2
          member_fitnesses := (wtd_remove p.member_fitnesses draw).2
          n := (wtd_remove p.members draw).2.length },
        (wtd_remove p.members draw).1) := rfl

lemma export'_wtd {α : Type} [LinearOrder α] (p : Population α) (ei : ℕ) (wt : Wt)
    (order : OrderSpec) (kf : ℕ) (gfrac : ℚ) (draw : List ℕ) (hwt : wt ≠ Wt.uni) :
    p.export' ei wt order kf gfrac draw =
      ({ p with
          members := (wtd_remove (sortPhase p.mode (effectiveOrder order gfrac)
            p.member_fitnesses p.members).2 draw).2
          member_fitnesses := (wtd_remove (sortPhase p.mode (effectiveOrder order gfrac)
            p.member_fitnesses p.members).1 draw).2
          n := (wtd_remove (sortPhase p.mode (effectiveOrder order gfrac)
            p.member_fitnesses p.members).2 draw).2.length },
        (wtd_remove (sortPhase p.mode (effectiveOrder order gfrac)
          p.member_fitnesses p.members).2 draw).1) := by
  cases wt
  · rfl
  · rfl
  · rfl
  · exact absurd rfl hwt

/-- Full behavioural characterization of `Population.export` under a
structurally valid draw: exactly `draw.length` members are removed, the
fitness list tracks the member list, the cached `n` is refreshed, the mode
and fitness history are untouched, and the remaining together with the
removed (fitness, member) pairs are a permutation of the original pairing. -/
lemma export'_spec {α : Type} [LinearOrder α] (p : Population α) (ei : ℕ) (wt : Wt)
    (order : OrderSpec) (kf : ℕ) (gfrac : ℚ) (draw : List ℕ)
    (hl : p.member_fitnesses.length = p.members.length)
    (hd : DrawOK p.members.length draw) :
    (p.export' ei wt order kf gfrac draw).2.length = draw.length ∧
    (p.export' ei wt order kf gfrac draw).1.members.length =
      p.members.length - draw.length ∧
    (p.export' ei wt order kf gfrac draw).1.member_fitnesses.length =
      p.members.length - draw.length ∧
    (p.export' ei wt order kf gfrac draw).1.n = p.members.length - draw.length ∧
    (p.export' ei wt order kf gfrac draw).1.mode = p.mode ∧
    (p.export' ei wt order kf gfrac draw).1.fitlog = p.fitlog ∧
    ∃ rf : List ℚ, rf.length = draw.length ∧
      ((p.export' ei wt order kf gfrac draw).1.member_fitnesses.zip
          (p.export' ei wt order kf gfrac draw).1.members ++
        rf.zip (p.export' ei wt order kf gfrac draw).2).Perm
      (p.member_fitnesses.zip p.members) := by
  by_cases hwt : wt = Wt.uni
  · obtain ⟨w1, w2, w3, w4, w5⟩ := wtd_remove_spec p.member_fitnesses p.members draw hl hd
    subst hwt
    rw [export'_uni p ei order kf gfrac draw]
    exact ⟨w1, w2, w4, w2, rfl, rfl, (wtd_remove p.member_fitnesses draw).1,
      w3, w5⟩
  · obtain ⟨s1, s2, s3⟩ := sortPhase_spec p.mode (effectiveOrder order gfrac)
      p.member_fitnesses p.members hl
    have hd2 : DrawOK (sortPhase p.mode (effectiveOrder order gfrac)
        p.member_fitnesses p.members).2.length draw := by
      rw [s2]; exact hd
    obtain ⟨w1, w2, w3, w4, w5⟩ := wtd_remove_spec
      (sortPhase p.mode (effectiveOrder order gfrac) p.member_fitnesses p.members).1
      (sortPhase p.mode (effectiveOrder order gfrac) p.member_fitnesses p.members).2
      draw (by rw [s1, s2, hl]) hd2
    rw [s2] at w2 w4
    rw [export'_wtd p ei wt order kf gfrac draw hwt]
    exact ⟨w1, w2, w4, w2, rfl, rfl,
      (wtd_remove (sortPhase p.mode (effectiveOrder order gfrac)
        p.member_fitnesses p.members).1 draw).1, w3, w5.trans s3⟩

lemma DrawOK.card_le {n : ℕ} {draw : List ℕ} (h : DrawOK n draw) : draw.length ≤ n := by
  obtain ⟨hnd, hb⟩ := h
  rw [← List.toFinset_card_of_nodup hnd]
  have hsub : draw.toFinset ⊆ Finset.range n := by
    intro i hi
    rw [List.mem_toFinset] at hi
    exact Finset.mem_range.mpr (hb i hi)
  calc draw.toFinset.card ≤ (Finset.range n).card := Finset.card_le_card hsub
    _ = n := Finset.card_range n

lemma exportAll_cons {α : Type} [LinearOrder α] (wt : Wt) (order : OrderSpec) (kf : ℕ)
    (gfrac : ℚ) (p : Population α) (pops : List (Population α)) (e : ℕ) (eis : List ℕ)
    (d : List ℕ) (draws : List (List ℕ)) :
    exportAll (p :: pops) (e :: eis) wt order kf gfrac (d :: draws) =
      p.export' e wt order kf gfrac d :: exportAll pops eis wt order kf gfrac draws := rfl

/-- Mass bookkeeping for the member-selection phase: the sizes after export
plus the total number of removed members add back up to the sizes before. -/
lemma exportAll_sum {α : Type} [LinearOrder α] (wt : Wt) (order : OrderSpec) (kf : ℕ)
    (gfrac : ℚ) : ∀ (pops : List (Population α)) (eis : List ℕ) (draws : List (List ℕ)),
    List.Forall₂ (fun (p : Population α) (d : List ℕ) =>
      p.member_fitnesses.length = p.members.length ∧ DrawOK p.members.length d) pops draws →
    eis.length = pops.length →
    (sizes ((exportAll pops eis wt order kf gfrac draws).map Prod.fst)).sum +
      (((exportAll pops eis wt order kf gfrac draws).map Prod.snd).flatten).length =
      (sizes pops).sum := by
  intro pops
  induction pops with
  | nil =>
    intro eis draws hfa heis
    cases hfa
    simp [exportAll, sizes]
  | cons p pops ih =>
    intro eis draws hfa heis
    cases draws with
    | nil => exact absurd (List.Forall₂.length_eq hfa) (by simp)
    | cons d draws =>
      cases eis with
      | nil => exact absurd heis (by simp)
      | cons e eis =>
        rw [List.forall₂_cons] at hfa
        obtain ⟨⟨hpl, hpd⟩, hfa'⟩ := hfa
        have hstep := export'_spec p e wt order kf gfrac d hpl hpd
        have hrec := ih eis draws hfa' (by simpa using heis)
        rw [exportAll_cons]
        simp only [List.map_cons, sizes, List.flatten_cons, List.length_append,
          List.sum_cons]
        have hle := DrawOK.card_le hpd
        simp only [sizes] at hrec
        rw [hstep.2.1, hstep.1]
        omega

/-- Mass bookkeeping for the `ret=True` distribution loop: when the
multinomial allotment covers every population and sums to the pool size, the
whole pool is distributed. -/
lemma distribute_sum {α : Type} (nan : ℚ) :
    ∀ (pops : List (Population α)) (allot : List ℕ) (pool : List α),
    allot.length = pops.length → allot.sum = pool.length →
    (sizes (distribute nan pops allot pool)).sum = (sizes pops).sum + pool.length := by
  intro pops
  induction pops with
  | nil =>
    intro allot pool hl hs
    have h0 : allot = [] := List.length_eq_zero.mp (by simpa using hl)
    subst h0
    simp only [List.sum_nil] at hs
    simp [distribute, sizes, ← hs]
  | cons p pops ih =>
    intro allot pool hl hs
    cases allot with
    | nil => exact absurd hl (by simp)
    | cons a rest =>
      rw [List.sum_cons] at hs
      have ha : a ≤ pool.length := by omega
      have htake : (pool.take a).length = a := by
        rw [List.length_take]; omega
      have hdrop : (pool.drop a).length = pool.length - a := List.length_drop a pool
      have hrec := ih rest (pool.drop a) (by simpa using hl) (by omega)
      simp only [distribute, sizes, List.map_cons, List.sum_cons]
      simp only [sizes] at hrec
      rw [hrec]
      simp only [Population.receive, List.length_append, htake]
      omega

lemma listModify_length {β : Type} (f : β → β) : ∀ (l : List β) (i : ℕ),
    (listModify f l i).length = l.length := by
  intro l
  induction l with
  | nil => intro i; rfl
  | cons b bs ih =>
    intro i
    cases i with
    | zero => rfl
    | succ m => simp [listModify, ih m]

lemma listModify_getElem? {β : Type} (f : β → β) : ∀ (l : List β) (i k : ℕ),
    (listModify f l i)[k]? = if k = i then (l[k]?).map f else l[k]? := by
  intro l
  induction l with
  | nil => intro i k; simp [listModify]
  | cons b bs ih =>
    intro i k
    cases i with
    | zero =>
      cases k with
      | zero => simp [listModify]
      | succ k' => simp [listModify]
    | succ m =>
      cases k with
      | zero => simp [listModify]
      | succ k' =>
        simp only [listModify, List.getElem?_cons_succ]
        rw [ih m k']
        by_cases hk : k' = m
        · simp [hk]
        · simp [hk, Nat.succ_ne_succ]

lemma listModify_receive_sum {α : Type} (nan : ℚ) (inds : List α) :
    ∀ (pops : List (Population α)) (pi : ℕ), pi < pops.length →
    (sizes (listModify (fun p => p.receive inds nan) pops pi)).sum =
      (sizes pops).sum + inds.length := by
  intro pops
  induction pops with
  | nil => intro pi h; simp at h
  | cons p pops ih =>
    intro pi h
    cases pi with
    | zero =>
      simp [listModify, sizes, Population.receive]
      omega
    | succ m =>
      have := ih m (by simpa using h)
      simp only [listModify, sizes, List.map_cons, List.sum_cons]
      simp only [sizes] at this
      rw [this]
      omega

lemma distribExcl_length {α : Type} (nan : ℚ) : ∀ (idxs allot : List ℕ)
    (pops : List (Population α)) (g : List α),
    (distribExcl nan pops idxs allot g).length = pops.length := by
  intro idxs
  induction idxs with
  | nil => intro allot pops g; cases allot <;> rfl
  | cons pi idxs ih =>
    intro allot pops g
    cases allot with
    | nil => rfl
    | cons a rest =>
      rw [distribExcl, ih]
      exact listModify_length _ pops pi

/-- Mass bookkeeping for one origin group of the `ret=False` loop: with an
allotment that sums to the group size and at least as many destination
indices (all in range) as allotment entries, the whole group is received. -/
lemma distribExcl_sum {α : Type} (nan : ℚ) : ∀ (allot idxs : List ℕ)
    (pops : List (Population α)) (g : List α),
    allot.length ≤ idxs.length → (∀ i ∈ idxs, i < pops.length) →
    allot.sum = g.length →
    (sizes (distribExcl nan pops idxs allot g)).sum = (sizes pops).sum + g.length := by
  intro allot
  induction allot with
  | nil =>
    intro idxs pops g _ _ hs
    cases idxs with
    | nil => simp [distribExcl, ← hs]
    | cons pi idxs => simp [distribExcl, ← hs]
  | cons a rest ih =>
    intro idxs pops g hlen hb hs
    cases idxs with
    | nil => exact absurd hlen (by simp)
    | cons pi idxs =>
      rw [List.sum_cons] at hs
      have ha : a ≤ g.length := by omega
      have htake : (g.take a).length = a := by rw [List.length_take]; omega
      have hpi : pi < pops.length := hb pi (List.mem_cons_self pi idxs)
      rw [distribExcl]
      have hb' : ∀ i ∈ idxs, i <
          (listModify (fun p => p.receive (g.take a) nan) pops pi).length := by
        rw [listModify_length]
        exact fun i hi => hb i (List.mem_cons_of_mem pi hi)
      have hrec := ih idxs (listModify (fun p => p.receive (g.take a) nan) pops pi)
        (g.drop a) (by simpa using hlen) hb' (by rw [List.length_drop]; omega)
      rw [hrec, listModify_receive_sum nan (g.take a) pops pi hpi, htake,
        List.length_drop]
      omega

lemma exclIdxs_length {n j : ℕ} (h : j < n) : (exclIdxs n j).length = n - 1 := by
  unfold exclIdxs
  rw [List.length_append, List.length_take, List.length_drop, List.length_range]
  omega

lemma exclIdxs_lt {n j : ℕ} : ∀ i ∈ exclIdxs n j, i < n := by
  intro i hi
  unfold exclIdxs at hi
  rw [List.mem_append] at hi
  rcases hi with hi | hi
  · exact List.mem_range.mp (List.take_subset _ _ hi)
  · exact List.mem_range.mp (List.drop_subset _ _ hi)

lemma not_mem_exclIdxs {n j : ℕ} : j ∉ exclIdxs n j := by
  unfold exclIdxs
  rw [List.mem_append]
  rintro (h | h)
  · rw [List.take_range] at h
    have := List.mem_range.mp h
    omega
  · rw [List.mem_iff_getElem] at h
    obtain ⟨k, hk, hval⟩ := h
    rw [List.getElem_drop, List.getElem_range] at hval
    omega

lemma routeNoRet_length {α : Type} (nan : ℚ) : ∀ (gs : List (List α))
    (als : List (List ℕ)) (pops : List (Population α)) (c : ℕ),
    (routeNoRet nan pops c gs als).length = pops.length := by
  intro gs
  induction gs with
  | nil => intro als pops c; cases als <;> rfl
  | cons g gs ih =>
    intro als pops c
    cases als with
    | nil => rfl
    | cons al als =>
      rw [routeNoRet, ih, distribExcl_length]

/-- Mass bookkeeping for the whole `ret=False` routing loop: with per-group
multinomial allotments over the other `npops - 1` populations, each summing to
its (shuffled) group's size, every exported individual is received. -/
lemma routeNoRet_sum {α : Type} (nan : ℚ) (npops : ℕ) : ∀ (gs : List (List α))
    (als : List (List ℕ)) (pops : List (Population α)) (c : ℕ),
    pops.length = npops →
    List.Forall₂ (fun (al : List ℕ) (g : List α) =>
      al.length = npops - 1 ∧ al.sum = g.length) als gs →
    c + gs.length ≤ npops →
    (sizes (routeNoRet nan pops c gs als)).sum =
      (sizes pops).sum + (gs.map List.length).sum := by
  intro gs
  induction gs with
  | nil =>
    intro als pops c _ hfa _
    cases hfa
    simp [routeNoRet]
  | cons g gs ih =>
    intro als pops c hnp hfa hc
    cases als with
    | nil => exact absurd (List.Forall₂.length_eq hfa) (by simp)
    | cons al als =>
      rw [List.forall₂_cons] at hfa
      obtain ⟨⟨hal, has⟩, hfa'⟩ := hfa
      have hcn : c < pops.length := by
        simp only [List.length_cons] at hc; omega
      have hlen1 : al.length ≤ (exclIdxs pops.length c).length := by
        rw [exclIdxs_length hcn, hal, hnp]
      have hstep := distribExcl_sum nan al (exclIdxs pops.length c) pops g hlen1
        exclIdxs_lt has
      have hpl : (distribExcl nan pops (exclIdxs pops.length c) al g).length =
          npops := by rw [distribExcl_length nan _ _ _ _, hnp]
      have hrec := ih als (distribExcl nan pops (exclIdxs pops.length c) al g)
        (c + 1) hpl hfa' (by simp only [List.length_cons] at hc; omega)
      rw [routeNoRet, hrec, hstep]
      simp only [List.map_cons, List.sum_cons]
      omega

lemma distribExcl_getElem?_not_mem {α : Type} (nan : ℚ) : ∀ (idxs allot : List ℕ)
    (pops : List (Population α)) (g : List α) (k : ℕ), k ∉ idxs →
    (distribExcl nan pops idxs allot g)[k]? = pops[k]? := by
  intro idxs
  induction idxs with
  | nil => intro allot pops g k _; cases allot <;> rfl
  | cons pi idxs ih =>
    intro allot pops g k hk
    cases allot with
    | nil => rfl
    | cons a rest =>
      rw [distribExcl, ih rest _ _ k (fun h => hk (List.mem_cons_of_mem pi h)),
        listModify_getElem?,
        if_neg (fun h : k = pi => hk (by rw [h]; exact List.mem_cons_self pi idxs))]

/-- Distributing one exported group only ever appends members drawn from that
group to the populations it touches. -/
lemma distribExcl_extends {α : Type} (nan : ℚ) : ∀ (idxs allot : List ℕ)
    (pops : List (Population α)) (g : List α) (k : ℕ) (q : Population α),
    pops[k]? = some q →
    ∃ q' extra, (distribExcl nan pops idxs allot g)[k]? = some q' ∧
      q'.members = q.members ++ extra ∧ ∀ x ∈ extra, x ∈ g := by
  intro idxs
  induction idxs with
  | nil =>
    intro allot pops g k q hq
    refine ⟨q, [], ?_, (List.append_nil q.members).symm, fun x hx => absurd hx
      (List.not_mem_nil x)⟩
    cases allot <;> exact hq
  | cons pi idxs ih =>
    intro allot pops g k q hq
    cases allot with
    | nil =>
      exact ⟨q, [], hq, (List.append_nil q.members).symm, fun x hx => absurd hx
        (List.not_mem_nil x)⟩
    | cons a rest =>
      rw [distribExcl]
      by_cases hk : k = pi
      · have hq1 : (listModify (fun p => p.receive (g.take a) nan) pops pi)[k]? =
            some (q.receive (g.take a) nan) := by
          rw [listModify_getElem?, if_pos hk, hq]
          rfl
        obtain ⟨q', extra', hget, hmem, hsub⟩ := ih rest
          (listModify (fun p => p.receive (g.take a) nan) pops pi) (g.drop a) k
          (q.receive (g.take a) nan) hq1
        refine ⟨q', g.take a ++ extra', hget, ?_, ?_⟩
        · rw [hmem]
          simp [Population.receive, List.append_assoc]
        · intro x hx
          rcases List.mem_append.mp hx with hx | hx
          · exact List.take_subset a g hx
          · exact List.drop_subset a g (hsub x hx)
      · have hq1 : (listModify (fun p => p.receive (g.take a) nan) pops pi)[k]? =
            some q := by
          rw [listModify_getElem?, if_neg hk, hq]
        obtain ⟨q', extra', hget, hmem, hsub⟩ := ih rest
          (listModify (fun p => p.receive (g.take a) nan) pops pi) (g.drop a) k q hq1
        exact ⟨q', extra', hget, hmem, fun x hx => List.drop_subset a g (hsub x hx)⟩

/-- Everything a population gains during the `ret=False` routing loop comes
from a group whose origin index differs from its own index: the origin's own
group is distributed over the *other* populations only. -/
lemma routeNoRet_extends {α : Type} (nan : ℚ) : ∀ (gs : List (List α))
    (als : List (List ℕ)) (pops : List (Population α)) (c j : ℕ) (q : Population α),
    pops[j]? = some q →
    ∃ q' extra, (routeNoRet nan pops c gs als)[j]? = some q' ∧
      q'.members = q.members ++ extra ∧
      ∀ x ∈ extra, ∃ k, k < gs.length ∧ c + k ≠ j ∧ x ∈ gs.getD k [] := by
  intro gs
  induction gs with
  | nil =>
    intro als pops c j q hq
    refine ⟨q, [], ?_, (List.append_nil q.members).symm, fun x hx => absurd hx
      (List.not_mem_nil x)⟩
    cases als <;> exact hq
  | cons g gs ih =>
    intro als pops c j q hq
    cases als with
    | nil =>
      exact ⟨q, [], hq, (List.append_nil q.members).symm, fun x hx => absurd hx
        (List.not_mem_nil x)⟩
    | cons al als =>
      rw [routeNoRet]
      by_cases hcj : c = j
      · have hq1 : (distribExcl nan pops (exclIdxs pops.length c) al g)[j]? =
            some q := by
          rw [distribExcl_getElem?_not_mem nan _ _ _ _ j (hcj ▸ not_mem_exclIdxs), hq]
        obtain ⟨q', extra, hget, hmem, hsub⟩ := ih als
          (distribExcl nan pops (exclIdxs pops.length c) al g) (c + 1) j q hq1
        refine ⟨q', extra, hget, hmem, fun x hx => ?_⟩
        obtain ⟨k, hk, hkj, hkm⟩ := hsub x hx
        exact ⟨k + 1, by simpa using Nat.succ_lt_succ hk, by omega, by simpa using hkm⟩
      · obtain ⟨q₁, e₁, hget₁, hmem₁, hsub₁⟩ := distribExcl_extends nan
          (exclIdxs pops.length c) al pops g j q hq
        obtain ⟨q', e₂, hget₂, hmem₂, hsub₂⟩ := ih als
          (distribExcl nan pops (exclIdxs pops.length c) al g) (c + 1) j q₁ hget₁
        refine ⟨q', e₁ ++ e₂, hget₂, by rw [hmem₂, hmem₁, List.append_assoc],
          fun x hx => ?_⟩
        rcases List.mem_append.mp hx with hx | hx
        · exact ⟨0, by simp, by omega, by simpa using hsub₁ x hx⟩
        · obtain ⟨k, hk, hkj, hkm⟩ := hsub₂ x hx
          exact ⟨k + 1, by simpa using Nat.succ_lt_succ hk, by omega, by simpa using hkm⟩

lemma exportWts_length (wt : Wt) (kf n : ℕ) : (exportWts wt kf n).length = n := by
  simp [exportWts]

lemma exportWts_getD {wt : Wt} {kf n i : ℕ} (hi : i < n) :
    (exportWts wt kf n).getD i 0 =
      match wt with
      | Wt.uni => 1 / (n : ℝ)
      | Wt.log => (Real.log ((i : ℝ) + 1) + (kf : ℝ)) /
          ((n : ℝ) * (kf : ℝ) + raj_logfact (n : ℝ))
      | Wt.lin => (((i : ℝ) + 1) - 1 + (kf : ℝ)) /
          ((n : ℝ) * ((kf : ℝ) - 1/2) + 1/2 * (n : ℝ)^2)
      | Wt.exp => (Real.exp (((i : ℝ) + 1) - 1) - 1 + (kf : ℝ)) /
          (((kf : ℝ) - 1) * (n : ℝ) + (1 - Real.exp (n : ℝ)) / (1 - Real.exp 1)) := by
  unfold exportWts
  rw [List.getD_eq_getElem?_getD, List.getElem?_map, List.getElem?_range hi]
  cases wt <;> rfl

/-- With the `kf = 1` variant every rank weight of every scheme is strictly
positive (for `kf = 0` the lowest rank gets weight exactly `0`, see the
counterexample for the f weighted-sampling claim). -/
lemma exportWts_pos {wt : Wt} {n i : ℕ} (hn : 1 ≤ n) (hi : i < n) :
    0 < (exportWts wt 1 n).getD i 0 := by
  have hn' : (1 : ℝ) ≤ (n : ℝ) := by exact_mod_cast hn
  have hi' : (0 : ℝ) ≤ (i : ℝ) := Nat.cast_nonneg i
  rw [exportWts_getD hi]
  cases wt
  case log =>
    have hnum : 0 < Real.log ((i : ℝ) + 1) + ((1 : ℕ) : ℝ) := by
      have := Real.log_nonneg (by linarith : (1 : ℝ) ≤ (i : ℝ) + 1)
      push_cast
      linarith
    have hden : 0 < (n : ℝ) * ((1 : ℕ) : ℝ) + raj_logfact (n : ℝ) := by
      have h1 : 0 ≤ (n : ℝ) * Real.log (n : ℝ) :=
        mul_nonneg (by linarith) (Real.log_nonneg hn')
      have hn2 : (1 : ℝ) ≤ (n : ℝ) * (n : ℝ) := by nlinarith
      have hn3 : (1 : ℝ) ≤ (n : ℝ) * (n : ℝ) * (n : ℝ) := by nlinarith
      have h2 : 0 < Real.log ((n : ℝ) * (1 + 4*(n : ℝ)*(1+2*(n : ℝ)))) :=
        Real.log_pos (by nlinarith)
      have h3 : 0 < Real.log Real.pi :=
        Real.log_pos (by linarith [Real.pi_gt_three])
      have hshape : (n : ℝ) * ((1 : ℕ) : ℝ) + raj_logfact (n : ℝ) =
          (n : ℝ) * Real.log (n : ℝ) +
          Real.log ((n : ℝ) * (1 + 4*(n : ℝ)*(1+2*(n : ℝ)))) / 6 +
          Real.log Real.pi / 2 := by
        unfold raj_logfact
        push_cast
        ring
      rw [hshape]
      linarith
    exact div_pos hnum hden
  case lin =>
    have hnum : 0 < ((i : ℝ) + 1) - 1 + ((1 : ℕ) : ℝ) := by push_cast; linarith
    have hden : 0 < (n : ℝ) * (((1 : ℕ) : ℝ) - 1/2) + 1/2 * (n : ℝ)^2 := by
      push_cast
      nlinarith
    exact div_pos hnum hden
  case exp =>
    have hnum : 0 < Real.exp (((i : ℝ) + 1) - 1) - 1 + ((1 : ℕ) : ℝ) := by
      have := Real.exp_pos (((i : ℝ) + 1) - 1)
      push_cast
      linarith
    have he1 : (1 : ℝ) < Real.exp 1 := Real.one_lt_exp_iff.mpr (by norm_num)
    have hen : (1 : ℝ) < Real.exp (n : ℝ) := Real.one_lt_exp_iff.mpr (by linarith)
    have hq : 0 < (1 - Real.exp (n : ℝ)) / (1 - Real.exp 1) :=
      div_pos_iff.mpr (Or.inr ⟨by linarith, by linarith⟩)
    have hden : 0 < (((1 : ℕ) : ℝ) - 1) * (n : ℝ) +
        (1 - Real.exp (n : ℝ)) / (1 - Real.exp 1) := by
      push_cast
      linarith
    exact div_pos hnum hden
  case uni =>
    have : (0 : ℝ) < (n : ℝ) := by linarith
    positivity

/-- When every weight is positive, any draw size up to the support size is
feasible for `np.random.choice` without replacement. -/
lemma sampleOK_of_pos {wts : List ℝ} {k : ℕ} (hlen : k ≤ wts.length)
    (hpos : ∀ i, i < wts.length → 0 < wts.getD i 0) : SampleOK wts k := by
  refine ⟨List.range k, List.length_range k, List.nodup_range k, fun i hi => ?_⟩
  have hik : i < k := List.mem_range.mp hi
  exact ⟨by omega, hpos i (by omega)⟩

/-- Each bounds entry contributes at least one component to the result of
`ensure_bounds`: by trichotomy at least one of the three conditionals holds,
and a component exactly on a bound (with `low ≤ high`) satisfies the third. -/
lemma ensure_bounds_go_length (vec : List ℚ) : ∀ (bounds : List (ℚ × ℚ)) (i : ℕ),
    i + bounds.length ≤ vec.length →
    ∃ out, ensure_bounds_go vec i bounds = some out ∧ bounds.length ≤ out.length := by
  intro bounds
  induction bounds with
  | nil => intro i _; exact ⟨[], rfl, by simp⟩
  | cons b rest ih =>
    intro i h
    have hi : i < vec.length := by
      simp only [List.length_cons] at h
      omega
    obtain ⟨tail, htail, hlen⟩ := ih (i + 1) (by
      simp only [List.length_cons] at h
      omega)
    rw [ensure_bounds_go, List.getElem?_eq_getElem hi, htail]
    simp only [Option.map_some']
    refine ⟨_, rfl, ?_⟩
    have hcontrib : 1 ≤ ((if vec[i] < b.1 then [b.1] else []) ++
        (if vec[i] > b.2 then [b.2] else []) ++
        (if b.1 ≤ vec[i] ∧ vec[i] ≤ b.2 then [vec[i]] else [])).length := by
      by_cases h1 : vec[i] < b.1
      · simp [h1]
      · by_cases h2 : vec[i] > b.2
        · simp [h2]
          omega
        · have h3 : b.1 ≤ vec[i] ∧ vec[i] ≤ b.2 := ⟨le_of_not_lt h1, le_of_not_lt h2⟩
          simp [h3]
          omega
    simp only [List.length_append, List.length_cons]
    simp only [List.length_append] at hcontrib
    omega

/-- C6: for every integer `N > 1`, `get_alphabeta('up', 1, N) = 0` and
`get_alphabeta('up', N, N) = 1`, and for every cycle `1 ≤ c ≤ N`,
`get_alphabeta('down', c, N) = 1 - get_alphabeta('up', c, N)`. -/
theorem C6_annealing_endpoints (N : ℕ) (hN : 1 < N) :
    get_alphabeta ABSpec.up 1 N = 0 ∧ get_alphabeta ABSpec.up N N = 1 ∧
    ∀ c : ℕ, 1 ≤ c → c ≤ N →
      get_alphabeta ABSpec.down c N = 1 - get_alphabeta ABSpec.up c N := by
  have hN' : (1 : ℚ) < (N : ℚ) := by exact_mod_cast hN
  have hNne : ((N : ℚ) - 1) ≠ 0 := sub_ne_zero.mpr (ne_of_gt hN')
  refine ⟨?_, ?_, fun c _ _ => rfl⟩
  · simp [get_alphabeta]
  · simp only [get_alphabeta]
    exact div_self hNne

/-- C6 witness at `N = 3`. -/
theorem C6_annealing_endpoints_witness :
    get_alphabeta ABSpec.up 1 3 = 0 ∧ get_alphabeta ABSpec.up 3 3 = 1 ∧
    ∀ c : ℕ, 1 ≤ c → c ≤ 3 →
      get_alphabeta ABSpec.down c 3 = 1 - get_alphabeta ABSpec.up c 3 :=
  C6_annealing_endpoints 3 (by decide)

/-- C9: for `q='up'` and every `N > 1`, `get_q(1, N) = -1` and
`get_q(N, N) = 1`, `get_q(c, N) ∈ [-1, 1]` for `1 ≤ c ≤ N`, `'down'` is the
negation, and consequently the binomial success probability
`(.5 - s)*q + .5` of aeo.py line 668 lies in `[0, 1]` for every scaled
strength `s ∈ [0, 1]`, so `np.random.binomial` cannot raise. -/
theorem C9_q_endpoints_binomial_safe (N c : ℕ) (s : ℚ) (hN : 1 < N) (hc1 : 1 ≤ c)
    (hcN : c ≤ N) (hs0 : 0 ≤ s) (hs1 : s ≤ 1) :
    get_q ABSpec.up 1 N = -1 ∧ get_q ABSpec.up N N = 1 ∧
    (-1 ≤ get_q ABSpec.up c N ∧ get_q ABSpec.up c N ≤ 1) ∧
    get_q ABSpec.down c N = - get_q ABSpec.up c N ∧
    (0 ≤ binomial_wt s (get_q ABSpec.up c N) ∧
      binomial_wt s (get_q ABSpec.up c N) ≤ 1) ∧
    (0 ≤ binomial_wt s (get_q ABSpec.down c N) ∧
      binomial_wt s (get_q ABSpec.down c N) ≤ 1) := by
  have hN' : (1 : ℚ) < (N : ℚ) := by exact_mod_cast hN
  have hc' : (1 : ℚ) ≤ (c : ℚ) := by exact_mod_cast hc1
  have hcN' : (c : ℚ) ≤ (N : ℚ) := by exact_mod_cast hcN
  have hd : (1 : ℚ) - (N : ℚ) < 0 := by linarith
  have hdne : (1 : ℚ) - (N : ℚ) ≠ 0 := ne_of_lt hd
  have hup : get_q ABSpec.up c N = 2 * ((1 - (c : ℚ)) / (1 - (N : ℚ))) - 1 := by
    simp only [get_q]
    ring
  have ht : (1 - (c : ℚ)) / (1 - (N : ℚ)) = ((c : ℚ) - 1) / ((N : ℚ) - 1) := by
    rw [← neg_div_neg_eq]
    ring_nf
  have ht0 : 0 ≤ (1 - (c : ℚ)) / (1 - (N : ℚ)) := by
    rw [ht]
    exact div_nonneg (by linarith) (by linarith)
  have ht1 : (1 - (c : ℚ)) / (1 - (N : ℚ)) ≤ 1 := by
    rw [ht]
    exact (div_le_one (by linarith)).mpr (by linarith)
  have hq0 : -1 ≤ get_q ABSpec.up c N := by rw [hup]; linarith
  have hq1 : get_q ABSpec.up c N ≤ 1 := by rw [hup]; linarith
  have hdown : get_q ABSpec.down c N = - get_q ABSpec.up c N := by
    simp only [get_q]
    ring
  have hkey : ∀ qt : ℚ, -1 ≤ qt → qt ≤ 1 →
      0 ≤ binomial_wt s qt ∧ binomial_wt s qt ≤ 1 := by
    intro qt hqa hqb
    unfold binomial_wt
    constructor
    · nlinarith [mul_nonneg (by linarith : (0:ℚ) ≤ 1 - s) (by linarith : (0:ℚ) ≤ 1 + qt),
        mul_nonneg hs0 (by linarith : (0:ℚ) ≤ 1 - qt)]
    · nlinarith [mul_nonneg (by linarith : (0:ℚ) ≤ 1 - s) (by linarith : (0:ℚ) ≤ 1 - qt),
        mul_nonneg hs0 (by linarith : (0:ℚ) ≤ 1 + qt)]
  refine ⟨?_, ?_, ⟨hq0, hq1⟩, hdown, hkey _ hq0 hq1, ?_⟩
  · simp only [get_q, Nat.cast_one]
    ring
  · simp only [get_q]
    field_simp
    norm_num
  · rw [hdown]
    exact hkey _ (by linarith) (by linarith)

/-- C9 witness at `N = 3`, `c = 2`, `s = 1`. -/
theorem C9_q_endpoints_binomial_safe_witness :
    get_q ABSpec.up 1 3 = -1 ∧ get_q ABSpec.up 3 3 = 1 ∧
    (-1 ≤ get_q ABSpec.up 2 3 ∧ get_q ABSpec.up 2 3 ≤ 1) ∧
    get_q ABSpec.down 2 3 = - get_q ABSpec.up 2 3 ∧
    (0 ≤ binomial_wt 1 (get_q ABSpec.up 2 3) ∧
      binomial_wt 1 (get_q ABSpec.up 2 3) ≤ 1) ∧
    (0 ≤ binomial_wt 1 (get_q ABSpec.down 2 3) ∧
      binomial_wt 1 (get_q ABSpec.down 2 3) ≤ 1) :=
  C9_q_endpoints_binomial_safe 3 2 1 (by decide) (by decide) (by decide)
    (by decide) (by decide)

/-- C4 (amended): with at least two recorded cycles, the `improve` raw signal
is `max(fitlog[-1] - fitlog[-2], 0)`; with only one recorded cycle (no prior
cycle) the code does NOT treat the raw signal as 0 — it falls back to the
current best fitness `fitlog[-1]`, exactly as for the `fitness` measure. -/
theorem C4_improve_raw_signal (pre : List ℚ) (y x : ℚ) :
    Population.strengthUnorm Measure.improve (pre ++ [y, x]) = some (max (x - y) 0) ∧
    Population.strengthUnorm Measure.improve [x] = some x := by
  constructor
  · have hlen : 1 < (pre ++ [y, x]).length := by
      rw [List.length_append]
      simp
    have hlast : (pre ++ [y, x]).getLast? = some x := by
      rw [List.getLast?_append]
      rfl
    have hdrop : (pre ++ [y, x]).dropLast = pre ++ [y] := by
      rw [List.dropLast_append_of_ne_nil _ (by simp)]
      rfl
    have hprev : (pre ++ [y, x]).dropLast.getLast? = some y := by
      rw [hdrop, List.getLast?_append]
      rfl
    rw [Population.strengthUnorm, if_pos ⟨rfl, hlen⟩, hlast, hprev]
  · rfl

/-- C4 counterexample: with a single-entry fitness history the raw `improve`
signal is the recorded fitness itself (here `5`), not `0` as the claim
states. -/
theorem C4_counterexample :
    Population.strengthUnorm Measure.improve [5] = some 5 ∧ (5 : ℚ) ≠ 0 := by
  exact ⟨rfl, by norm_num⟩

/-- C2: in a degenerate-diversity cycle (`maxf == minf`, here both `1`) the
export counts are all zero and the migration flag is recorded false — but the
cycle only completes if the loop-local `alpha` was bound by an earlier
non-degenerate cycle (`prevAlpha = some a`).  On a first-cycle degenerate
migration (`prevAlpha = none`) the unconditional `log['alpha'] = alpha`
write at aeo.py line 679 raises `UnboundLocalError` (modelled by `none`),
contradicting the claim that the cycle completes without error. -/
theorem C2_degenerate_first_cycle_error (spec : ABSpec) (i N : ℕ)
    (binDraws : List ℕ) (a : ℚ) :
    exportNumberPhase [1, 1] none spec i N binDraws = none ∧
    exportNumberPhase [1, 1] (some a) spec i N binDraws =
      some (List.replicate 2 0, false, a) := by
  exact ⟨rfl, rfl⟩

/-- C8 (amended): `ensure_bounds` never returns a result shorter than the
input: whenever the index walk stays in range (`len(vec) == len(bounds)`),
every bounds entry contributes at least one component, because the three
conditionals jointly cover all cases — in particular a component lying
exactly on a bound satisfies `low <= vec[i] <= high` and is appended exactly
by the third conditional. -/
theorem C8_ensure_bounds_never_shorter (vec : List ℚ) (bounds : List (ℚ × ℚ))
    (h : vec.length = bounds.length) :
    ∃ out, ensure_bounds vec bounds = some out ∧ vec.length ≤ out.length := by
  obtain ⟨out, hout, hlen⟩ := ensure_bounds_go_length vec bounds 0 (by omega)
  exact ⟨out, hout, by omega⟩

/-- C8 witness: a component lying exactly on the low bound is kept, and the
output is not shorter. -/
theorem C8_ensure_bounds_never_shorter_witness :
    ∃ out, ensure_bounds [(0 : ℚ)] [((0 : ℚ), (1 : ℚ))] = some out ∧
      [(0 : ℚ)].length ≤ out.length :=
  C8_ensure_bounds_never_shorter [0] [(0, 1)] rfl

/-- C8 counterexample to the claim as stated: there is no input vector (with
the in-context length match `len(vec) == len(bounds)`) on which
`ensure_bounds` returns a shorter vector — boundary components included. -/
theorem C8_counterexample :
    (∃ (vec : List ℚ) (bounds : List (ℚ × ℚ)) (out : List ℚ),
      vec.length = bounds.length ∧ ensure_bounds vec bounds = some out ∧
      out.length < vec.length) = False := by
  apply eq_false
  rintro ⟨vec, bounds, out, hlen, hout, hshort⟩
  obtain ⟨out', hout', hlen'⟩ := ensure_bounds_go_length vec bounds 0 (by omega)
  rw [ensure_bounds] at hout
  rw [hout] at hout'
  obtain rfl : out = out' := Option.some.inj hout'
  omega

lemma wtd_remove_nil {α : Type} (l : List α) : wtd_remove l [] = ([], l) := rfl

lemma forall₂_perm_sum_lengths {α : Type} : ∀ (sgs : List (List α))
    (prs : List (Population α × List α)),
    List.Forall₂ (fun (sg : List α) (pr : Population α × List α) =>
      sg.Perm pr.2) sgs prs →
    (sgs.map List.length).sum = ((prs.map Prod.snd).flatten).length := by
  intro sgs
  induction sgs with
  | nil =>
    intro prs h
    cases h
    simp
  | cons sg sgs ih =>
    intro prs h
    cases prs with
    | nil => cases h
    | cons pr prs =>
      rw [List.forall₂_cons] at h
      simp only [List.map_cons, List.flatten_cons, List.sum_cons, List.length_append]
      rw [ih prs h.2, h.1.length_eq]

lemma forall₂_getElem? {α β : Type} {R : α → β → Prop} : ∀ {l₁ : List α} {l₂ : List β},
    List.Forall₂ R l₁ l₂ → ∀ (k : ℕ) (a : α), l₁[k]? = some a →
    ∃ b, l₂[k]? = some b ∧ R a b := by
  intro l₁
  induction l₁ with
  | nil =>
    intro l₂ _ k a ha
    simp at ha
  | cons x l₁ ih =>
    intro l₂ h k a ha
    cases l₂ with
    | nil => cases h
    | cons y l₂ =>
      rw [List.forall₂_cons] at h
      cases k with
      | zero =>
        simp only [List.getElem?_cons_zero, Option.some.injEq] at ha
        subst ha
        exact ⟨y, by simp, h.1⟩
      | succ m =>
        simp only [List.getElem?_cons_succ] at ha ⊢
        exact ih h.2 m a ha

/-- C7 (amended): `receive([])` is an exact no-op, `export(0, ...)` with
uniform weighting is an exact no-op, and `export(0, ...)` with any weighting
scheme removes nothing and leaves `n`, the mode, the history, and the
multiset of (fitness, member) pairs unchanged — though a non-uniform scheme
may reorder `members` by sorting them (see the counterexample). -/
theorem C7_noop_amended {α : Type} [LinearOrder α] (p : Population α) (wt : Wt)
    (order : OrderSpec) (kf : ℕ) (gfrac : ℚ) (nan : ℚ)
    (hn : p.n = p.members.length)
    (hl : p.member_fitnesses.length = p.members.length) :
    p.receive [] nan = p ∧
    p.export' 0 Wt.uni order kf gfrac [] = (p, []) ∧
    (p.export' 0 wt order kf gfrac []).2 = [] ∧
    (p.export' 0 wt order kf gfrac []).1.n = p.n ∧
    (p.export' 0 wt order kf gfrac []).1.mode = p.mode ∧
    (p.export' 0 wt order kf gfrac []).1.fitlog = p.fitlog ∧
    ((p.export' 0 wt order kf gfrac []).1.member_fitnesses.zip
        (p.export' 0 wt order kf gfrac []).1.members).Perm
      (p.member_fitnesses.zip p.members) := by
  have hd : DrawOK p.members.length ([] : List ℕ) := ⟨List.nodup_nil, by simp⟩
  obtain ⟨e1, e2, e3, e4, e5, e6, rf, hrf, hperm⟩ :=
    export'_spec p 0 wt order kf gfrac [] hl hd
  have hrfnil : rf = [] := List.length_eq_zero.mp (by simpa using hrf)
  refine ⟨?_, ?_, ?_, ?_, e5, e6, ?_⟩
  · cases p with
    | mk mems fits n mode fitlog =>
      simp only at hn
      simp [Population.receive, hn]
  · rw [export'_uni, wtd_remove_nil, wtd_remove_nil]
    cases p with
    | mk mems fits n mode fitlog =>
      simp only at hn
      simp [hn]
  · exact List.length_eq_zero.mp (by simpa using e1)
  · rw [e4, hn]
    simp
  · subst hrfnil
    simpa using hperm

/-- C7 counterexample: `export(0, wt='lin', order='wb', kf=1)` on a max-mode
population sorts the members (worst fitness first), so the member list is
mutated even though nothing is exported. -/
theorem C7_counterexample :
    (Population.export' (⟨[10, 20], [2, 1], 2, Mode.max, []⟩ : Population ℚ)
        0 Wt.lin OrderSpec.wb 1 0 []).1.members = [20, 10] ∧
    (⟨[10, 20], [2, 1], 2, Mode.max, []⟩ : Population ℚ).members = [10, 20] ∧
    ([20, 10] : List ℚ) ≠ [10, 20] := by
  refine ⟨by decide, rfl, by decide⟩

/-- C3 (amended): under any draw `np.random.choice` can return (distinct
in-range indices, one per requested removal), `Population.export` removes
exactly `k` members, keeps `members`/`member_fitnesses` length-equal and
index-aligned (their pairing, plus the removed pairs, is a permutation of the
original pairing), and refreshes `n`.  Moreover for the `kf = 1` variant of
every weighting scheme all rank weights are positive, so a valid draw exists
for every `k ≤ n`; for `kf = 0` the lowest rank has weight `0` and `k = n`
makes `np.random.choice` raise (see the counterexample). -/
theorem C3_export_exact_amended {α : Type} [LinearOrder α] (p : Population α) (k : ℕ)
    (wt : Wt) (order : OrderSpec) (kf : ℕ) (gfrac : ℚ) (draw : List ℕ)
    (hl : p.member_fitnesses.length = p.members.length)
    (hd : DrawOK p.members.length draw) (hk : draw.length = k) :
    ((p.export' k wt order kf gfrac draw).2.length = k ∧
      (p.export' k wt order kf gfrac draw).1.members.length =
        p.members.length - k ∧
      (p.export' k wt order kf gfrac draw).1.member_fitnesses.length =
        p.members.length - k ∧
      (p.export' k wt order kf gfrac draw).1.n =
        (p.export' k wt order kf gfrac draw).1.members.length ∧
      ∃ rf : List ℚ, rf.length = k ∧
        ((p.export' k wt order kf gfrac draw).1.member_fitnesses.zip
            (p.export' k wt order kf gfrac draw).1.members ++
          rf.zip (p.export' k wt order kf gfrac draw).2).Perm
          (p.member_fitnesses.zip p.members)) ∧
    (1 ≤ p.members.length → k ≤ p.members.length →
      SampleOK (exportWts wt 1 p.members.length) k) := by
  obtain ⟨e1, e2, e3, e4, e5, e6, rf, hrf, hperm⟩ :=
    export'_spec p k wt order kf gfrac draw hl hd
  subst hk
  constructor
  · refine ⟨e1, e2, e3, ?_, rf, hrf, hperm⟩
    rw [e4, e2]
  · intro h1 h2
    apply sampleOK_of_pos
    · rw [exportWts_length]
      exact h2
    · intro i hi
      rw [exportWts_length] at hi
      exact exportWts_pos h1 hi

/-- C3 counterexample: with `wt='lin'` and `kf=0` on a population of `n = 2`
members, rank 1 gets weight exactly `0`, so `np.random.choice` has only one
positive-weight entry and a without-replacement draw of size `k = n = 2` is
impossible — the Python call raises instead of removing 2 members. -/
theorem C3_counterexample : SampleOK (exportWts Wt.lin 0 2) 2 = False := by
  apply eq_false
  rintro ⟨draw, hlen, hnd, hmem⟩
  have h0 : (exportWts Wt.lin 0 2).getD 0 0 = 0 := by
    rw [exportWts_getD (by norm_num : (0 : ℕ) < 2)]
    norm_num
  have hall : ∀ i ∈ draw, i = 1 := by
    intro i hi
    obtain ⟨hilt, hipos⟩ := hmem i hi
    rw [exportWts_length] at hilt
    have hcase : i = 0 ∨ i = 1 := by omega
    rcases hcase with rfl | rfl
    · rw [h0] at hipos
      exact absurd hipos (lt_irrefl 0)
    · rfl
  cases draw with
  | nil => simp at hlen
  | cons a rest =>
    cases rest with
    | nil => simp at hlen
    | cons b rest2 =>
      have ha := hall a (List.mem_cons_self a _)
      have hb := hall b (List.mem_cons_of_mem a (List.mem_cons_self b _))
      rw [List.nodup_cons] at hnd
      apply hnd.1
      rw [ha, hb]
      exact List.mem_cons_self 1 _

/-- C3 witness: a uniform export of one of two members removes exactly one. -/
theorem C3_export_exact_amended_witness :
    (Population.export' (⟨[10, 20], [2, 1], 2, Mode.max, []⟩ : Population ℚ)
        1 Wt.uni OrderSpec.wb 1 0 [0]).2.length = 1 :=
  (C3_export_exact_amended (⟨[10, 20], [2, 1], 2, Mode.max, []⟩ : Population ℚ)
    1 Wt.uni OrderSpec.wb 1 0 [0] (by decide) (by decide) rfl).1.1

/-- C7 witness: `receive([])` is an exact no-op on a concrete two-member
population. -/
theorem C7_noop_amended_witness :
    (⟨[10, 20], [2, 1], 2, Mode.max, []⟩ : Population ℚ).receive [] 99 =
      (⟨[10, 20], [2, 1], 2, Mode.max, []⟩ : Population ℚ) :=
  (C7_noop_amended (⟨[10, 20], [2, 1], 2, Mode.max, []⟩ : Population ℚ)
    Wt.lin OrderSpec.wb 1 0 99 rfl rfl).1

/-- C1: with `ret=true`, when the oracle draws satisfy their library
contracts — each per-population `np.random.choice` draw is a distinct
in-range index list, the shuffled pool is a permutation of the chained
exported members, and the `np.random.multinomial` allotment covers every
population and sums to the pool size — the sum of population sizes after the
migration step equals the sum before it: every individual removed by
`Population.export` is received by exactly one population. -/
theorem C1_mass_conservation_ret_true {α : Type} [LinearOrder α]
    (pops : List (Population α)) (eis : List ℕ) (draws : List (List ℕ))
    (pool : List α) (allot : List ℕ) (wt : Wt) (order : OrderSpec) (kf : ℕ)
    (gfrac : ℚ) (nan : ℚ)
    (hfa : List.Forall₂ (fun (p : Population α) (d : List ℕ) =>
      p.member_fitnesses.length = p.members.length ∧ DrawOK p.members.length d)
      pops draws)
    (heis : eis.length = pops.length)
    (hpool : pool.Perm
      (((exportAll pops eis wt order kf gfrac draws).map Prod.snd).flatten))
    (hallot : allot.length = pops.length)
    (hsum : allot.sum = pool.length) :
    (sizes (migrateRet nan pops eis wt order kf gfrac draws pool allot)).sum =
      (sizes pops).sum := by
  have hpd : pops.length = draws.length := hfa.length_eq
  have hlen1 : ((exportAll pops eis wt order kf gfrac draws).map Prod.fst).length =
      pops.length := by
    simp only [exportAll, List.length_map, List.length_zip]
    omega
  have hD := distribute_sum nan
    ((exportAll pops eis wt order kf gfrac draws).map Prod.fst) allot pool
    (by rw [hallot, hlen1]) hsum
  have hE := exportAll_sum wt order kf gfrac pops eis draws hfa heis
  have hplen : pool.length =
      (((exportAll pops eis wt order kf gfrac draws).map Prod.snd).flatten).length :=
    hpool.length_eq
  unfold migrateRet
  rw [hD]
  omega

/-- C1 witness: two populations of sizes 2 and 1; the first exports one
member, which the multinomial allotment hands to the second. -/
theorem C1_mass_conservation_ret_true_witness :
    (sizes (migrateRet 99 [(⟨[10, 20], [2, 1], 2, Mode.max, []⟩ : Population ℚ),
        ⟨[30], [5], 1, Mode.max, []⟩] [1, 0] Wt.uni OrderSpec.wb 1 0 [[0], []]
        [10] [0, 1])).sum =
      (sizes [(⟨[10, 20], [2, 1], 2, Mode.max, []⟩ : Population ℚ),
        ⟨[30], [5], 1, Mode.max, []⟩]).sum :=
  C1_mass_conservation_ret_true
    [(⟨[10, 20], [2, 1], 2, Mode.max, []⟩ : Population ℚ),
      ⟨[30], [5], 1, Mode.max, []⟩] [1, 0] [[0], []] [10] [0, 1]
    Wt.uni OrderSpec.wb 1 0 99
    (List.Forall₂.cons (by decide) (List.Forall₂.cons (by decide) List.Forall₂.nil))
    (by decide) (by decide) (by decide) (by decide)

/-- C10: with `ret=false` and at least two populations, when each origin
group's `np.random.multinomial` allotment has one entry per *other*
population and sums to the group's size (its library contract), every
exported individual is received by exactly one other population, so the
total member count is unchanged by the migration step. -/
theorem C10_mass_conservation_no_return {α : Type} [LinearOrder α]
    (pops : List (Population α)) (eis : List ℕ) (draws : List (List ℕ))
    (sgroups : List (List α)) (allots : List (List ℕ)) (wt : Wt)
    (order : OrderSpec) (kf : ℕ) (gfrac : ℚ) (nan : ℚ)
    (hfa : List.Forall₂ (fun (p : Population α) (d : List ℕ) =>
      p.member_fitnesses.length = p.members.length ∧ DrawOK p.members.length d)
      pops draws)
    (heis : eis.length = pops.length)
    (hsg : List.Forall₂ (fun (sg : List α) (pr : Population α × List α) =>
      sg.Perm pr.2) sgroups (exportAll pops eis wt order kf gfrac draws))
    (hal : List.Forall₂ (fun (al : List ℕ) (sg : List α) =>
      al.length = pops.length - 1 ∧ al.sum = sg.length) allots sgroups)
    (hnp : 2 ≤ pops.length) :
    (sizes (migrateNoRet nan pops eis wt order kf gfrac draws sgroups allots)).sum =
      (sizes pops).sum := by
  have hpd : pops.length = draws.length := hfa.length_eq
  have hEA : (exportAll pops eis wt order kf gfrac draws).length = pops.length := by
    simp only [exportAll, List.length_map, List.length_zip]
    omega
  have hlen1 : ((exportAll pops eis wt order kf gfrac draws).map Prod.fst).length =
      pops.length := by
    rw [List.length_map, hEA]
  have hsgl : sgroups.length = pops.length := by
    rw [hsg.length_eq, hEA]
  have hR := routeNoRet_sum nan pops.length sgroups allots
    ((exportAll pops eis wt order kf gfrac draws).map Prod.fst) 0 hlen1 hal
    (by omega)
  have hE := exportAll_sum wt order kf gfrac pops eis draws hfa heis
  have hS := forall₂_perm_sum_lengths sgroups
    (exportAll pops eis wt order kf gfrac draws) hsg
  unfold migrateNoRet
  rw [hR]
  omega

/-- C10 witness: two populations; the first exports one member, routed to the
second (the only other destination). -/
theorem C10_mass_conservation_no_return_witness :
    (sizes (migrateNoRet 99 [(⟨[10, 20], [2, 1], 2, Mode.max, []⟩ : Population ℚ),
        ⟨[30], [5], 1, Mode.max, []⟩] [1, 0] Wt.uni OrderSpec.wb 1 0 [[0], []]
        [[10], []] [[1], [0]])).sum =
      (sizes [(⟨[10, 20], [2, 1], 2, Mode.max, []⟩ : Population ℚ),
        ⟨[30], [5], 1, Mode.max, []⟩]).sum :=
  C10_mass_conservation_no_return
    [(⟨[10, 20], [2, 1], 2, Mode.max, []⟩ : Population ℚ),
      ⟨[30], [5], 1, Mode.max, []⟩] [1, 0] [[0], []] [[10], []] [[1], [0]]
    Wt.uni OrderSpec.wb 1 0 99
    (List.Forall₂.cons (by decide) (List.Forall₂.cons (by decide) List.Forall₂.nil))
    (by decide)
    (List.Forall₂.cons (by decide) (List.Forall₂.cons (by decide) List.Forall₂.nil))
    (List.Forall₂.cons (by decide) (List.Forall₂.cons (by decide) List.Forall₂.nil))
    (by decide)

/-- C5: with `ret=false`, nothing a population gains during the routing step
of a cycle comes from its own exported group: every received individual
belongs to the group exported (in that same cycle) by some population with a
different index, because each group's multinomial allotment ranges only over
the other populations. -/
theorem C5_no_return_routing {α : Type} [LinearOrder α]
    (pops : List (Population α)) (eis : List ℕ) (draws : List (List ℕ))
    (sgroups : List (List α)) (allots : List (List ℕ)) (wt : Wt)
    (order : OrderSpec) (kf : ℕ) (gfrac : ℚ) (nan : ℚ) (j : ℕ) (q : Population α)
    (hsg : List.Forall₂ (fun (sg : List α) (pr : Population α × List α) =>
      sg.Perm pr.2) sgroups (exportAll pops eis wt order kf gfrac draws))
    (hq : ((exportAll pops eis wt order kf gfrac draws).map Prod.fst)[j]? = some q) :
    ∃ q' extra,
      (migrateNoRet nan pops eis wt order kf gfrac draws sgroups allots)[j]? =
        some q' ∧
      q'.members = q.members ++ extra ∧
      ∀ x ∈ extra, ∃ k pr, k ≠ j ∧
        (exportAll pops eis wt order kf gfrac draws)[k]? = some pr ∧ x ∈ pr.2 := by
  obtain ⟨q', extra, hget, hmem, hsub⟩ := routeNoRet_extends nan sgroups allots
    ((exportAll pops eis wt order kf gfrac draws).map Prod.fst) 0 j q hq
  refine ⟨q', extra, hget, hmem, fun x hx => ?_⟩
  obtain ⟨k, hk, hkj, hkm⟩ := hsub x hx
  have hks : sgroups[k]? = some sgroups[k] := List.getElem?_eq_getElem hk
  obtain ⟨pr, hpr, hperm⟩ := forall₂_getElem? hsg k sgroups[k] hks
  refine ⟨k, pr, by omega, hpr, ?_⟩
  apply hperm.mem_iff.mp
  rw [List.getD_eq_getElem?_getD, hks] at hkm
  exact hkm

/-- C5 witness: the first population exports a member and receives nothing;
the member it exported is recorded as exported by the other population only
when its origin index differs (here population 0's group goes to
population 1, and population 0 receives nothing). -/
theorem C5_no_return_routing_witness :
    ∃ q' extra,
      (migrateNoRet 99 [(⟨[10, 20], [2, 1], 2, Mode.max, []⟩ : Population ℚ),
        ⟨[30], [5], 1, Mode.max, []⟩] [1, 0] Wt.uni OrderSpec.wb 1 0 [[0], []]
        [[10], []] [[1], [0]])[0]? = some q' ∧
      q'.members = (⟨[20], [1], 1, Mode.max, []⟩ : Population ℚ).members ++ extra ∧
      ∀ x ∈ extra, ∃ k pr, k ≠ 0 ∧
        (exportAll [(⟨[10, 20], [2, 1], 2, Mode.max, []⟩ : Population ℚ),
          ⟨[30], [5], 1, Mode.max, []⟩] [1, 0] Wt.uni OrderSpec.wb 1 0
          [[0], []])[k]? = some pr ∧ x ∈ pr.2 :=
  C5_no_return_routing
    [(⟨[10, 20], [2, 1], 2, Mode.max, []⟩ : Population ℚ),
      ⟨[30], [5], 1, Mode.max, []⟩] [1, 0] [[0], []] [[10], []] [[1], [0]]
    Wt.uni OrderSpec.wb 1 0 99 0 (⟨[20], [1], 1, Mode.max, []⟩ : Population ℚ)
    (List.Forall₂.cons (by decide) (List.Forall₂.cons (by decide) List.Forall₂.nil))
    (by decide)

end NeorlPS
